import Mathlib

/-!
Shallow embedding of the `trait-mux` code generator core
(`src/crates/trait_mux_macros/src/trait_mux/analyze.rs`,
`src/crates/trait_mux_macros/src/trait_mux/lower.rs`, and the second
copy of `generate_enum_variants` in
`src/trait_mux_macros/src/trait_mux/analyze.rs`).

Modelling conventions:
* `syn::Path` is a list of segment identifiers (strings).
* `proc_macro2::Ident` is a string.
* A `Trait` carries `pathIdx`, the index of its `&Path` in `ast.paths`;
  two `&Path` references are pointer-equal (`core::ptr::eq`) iff the
  indices agree, so `pathIdx` embeds pointer identity.
* Rust `String` comparison is byte-wise lexicographic on UTF-8; on
  `List Char` the code-point order `lexLt` coincides with it.
* Rust's stable `sort_by_key` is embedded as `List.insertionSort` with
  the non-strict key relation, which is a stable sort.
* `emit_error!` followed by the failing `unwrap` aborts the expansion,
  so `extract_traits` is embedded as `Except Nat _`, the error holding
  the index (source location) of the offending path.
-/

/-- Strict byte-lexicographic order on character lists, embedding the
`Ord` instance Rust uses to compare `String` sort keys. -/
def lexLt : List Char → List Char → Bool
  | [], [] => false
  | [], _ :: _ => true
  | _ :: _, [] => false
  | a :: as, b :: bs => if a < b then true else if b < a then false else lexLt as bs

namespace Syn

/-- A `syn::Path`: a non-degenerate path has at least one segment. -/
structure Path where
  segments : List String
deriving DecidableEq, Repr

end Syn

/-- The parsed input `Ast`: the enum name and the referenced trait paths. -/
structure Ast where
  name : String
  paths : List Syn.Path
deriving DecidableEq, Repr

/-- A normalized trait: its display identifier (last path segment) and
the identity (`pathIdx`) of the `&Path` it was extracted from. -/
structure Trait where
  pathIdx : Nat
  ident : String
deriving DecidableEq, Repr

/-- An enum variant: its generated identifier and the trait subset it
implements. -/
structure EnumVariant where
  ident : String
  implemented_traits : List Trait
deriving DecidableEq, Repr

/-- The collection loop of `extract_traits`: one `Trait` per path, the
display name being the last segment; an empty path aborts with its
index. -/
def extractTraitsAux : Nat → List Syn.Path → Except Nat (List Trait)
  | _, [] => Except.ok []
  | i, p :: ps =>
    match p.segments.getLast? with
    | none => Except.error i
    | some s =>
      match extractTraitsAux (i + 1) ps with
      | Except.error e => Except.error e
      | Except.ok rest => Except.ok ({ pathIdx := i, ident := s } :: rest)

/-- `extract_traits` from `analyze.rs`: collect one `Trait` per path,
then sort alphabetically by identifier (`sort_by_key`, stable). -/
def extract_traits (ast : Ast) : Except Nat (List Trait) :=
  match extractTraitsAux 0 ast.paths with
  | Except.error e => Except.error e
  | Except.ok ts =>
    Except.ok (List.insertionSort (fun a b => lexLt b.ident.data a.ident.data = false) ts)

/-- The selection loop inside `generate_enum_variants`: walking the
trait list with counter `j`, keep the traits whose bit is set in `i`. -/
def bitsSubsetAux (i : Nat) : Nat → List Trait → List Trait
  | _, [] => []
  | j, t :: ts =>
    if i &&& (1 <<< j) ≠ 0 then t :: bitsSubsetAux i (j + 1) ts
    else bitsSubsetAux i (j + 1) ts

/-- The subset of `traits` selected by the bits of `i`. -/
def bitsSubset (traits : List Trait) (i : Nat) : List Trait :=
  bitsSubsetAux i 0 traits

/-- The name core of a variant: `"None"` for the empty subset, else the
concatenated display names. -/
def variantName (v : List Trait) : String :=
  if v.isEmpty then "None" else String.join (v.map (·.ident))

/-- The unsorted variant list of `generate_enum_variants`: one variant
per `i ∈ [0, 2^n)`, named with the owner's name prefixed. -/
def mkVariants (name : String) (traits : List Trait) : List EnumVariant :=
  ((List.range (1 <<< traits.length)).map (bitsSubset traits)).map
    (fun v => { ident := name ++ variantName v, implemented_traits := v })

/-- The sort key `format!("{} {}", len, ident)` of the
`src/crates` copy of `generate_enum_variants`, as a character list. -/
def sortKey (e : EnumVariant) : List Char :=
  (Nat.repr e.implemented_traits.length).data ++ ' ' :: e.ident.data

/-- `generate_enum_variants` from `src/crates/.../analyze.rs`: sort the
2^n variants ascending by `"{len} {ident}"`, then reverse. -/
def generate_enum_variants (name : String) (traits : List Trait) : List EnumVariant :=
  (List.insertionSort (fun a b => lexLt (sortKey b) (sortKey a) = false)
    (mkVariants name traits)).reverse

/-- The sort key `format!("{:0width$} {}", n - len, ident)` of the
`src/trait_mux_macros` copy, zero-padded to the digit count of `n`. -/
def sortKeyZeroPad (n : Nat) (e : EnumVariant) : List Char :=
  List.replicate
      ((Nat.repr n).data.length - (Nat.repr (n - e.implemented_traits.length)).data.length) '0'
    ++ (Nat.repr (n - e.implemented_traits.length)).data ++ ' ' :: e.ident.data

/-- `generate_enum_variants` from `src/trait_mux_macros/.../analyze.rs`:
sort ascending by the zero-padded key `"{n-len} {ident}"` (no reverse). -/
def generate_enum_variants_zero_pad (name : String) (traits : List Trait) : List EnumVariant :=
  List.insertionSort
    (fun a b => lexLt (sortKeyZeroPad traits.length b) (sortKeyZeroPad traits.length a) = false)
    (mkVariants name traits)

/-- The variant type of the analysis phase, under the alias the Rust
test module uses (`analyze::EnumVariant as AnalyzedEnumVariant`). -/
abbrev AnalyzedEnumVariant := EnumVariant

/-- The analysis `Model`: enum name, all variants, the wrapper name and
the sorted traits. -/
structure Model where
  enum_ident : String
  enum_variants : List EnumVariant
  wrap_ident : String
  traits : List Trait
deriving DecidableEq, Repr

/-- `analyze` from `analyze.rs`: extract the traits, enumerate the
variants (the `src/crates` pipeline), and build the model. -/
def analyze (ast : Ast) : Except Nat Model :=
  match extract_traits ast with
  | Except.error e => Except.error e
  | Except.ok traits =>
    Except.ok
      { enum_ident := ast.name
        enum_variants := generate_enum_variants ast.name traits
        wrap_ident := "Wrap" ++ ast.name
        traits := traits }

namespace Lower

/-- A trait aggregate (`CapabilityGroup`): the owning variant's name and
its member traits. -/
structure TraitAggregate where
  name : String
  traits : List Trait
deriving DecidableEq, Repr

/-- The constraint attached to a variant: none, a single trait path
(by pointer identity), or a trait aggregate identifier. -/
inductive Constraint where
  | none : Constraint
  | path : Nat → Constraint
  | ident : String → Constraint
deriving DecidableEq, Repr

/-- A lowered enum variant: name plus constraint. -/
structure EnumVariant where
  ident : String
  constraint : Constraint
deriving DecidableEq, Repr

/-- The lowered enum. -/
structure Enum where
  name : String
  variants : List EnumVariant
deriving DecidableEq, Repr

/-- A generated accessor (`try_as_*`): the trait it returns (by path
identity) and the variants it matches.  The snake-case function name is
cosmetic and not modelled. -/
structure Function where
  result_path : Nat
  matching_variants : List String
deriving DecidableEq, Repr

/-- The functions implemented on the enum. -/
structure EnumImpl where
  functions : List Function
deriving DecidableEq, Repr

/-- An autoref specializer: tag and match-trait names, the number of
dereferences, the variant and its constraint. -/
structure AutorefSpecializer where
  tag : String
  matchIdent : String
  deref_count : Nat
  variant : String
  constraint : Constraint
deriving DecidableEq, Repr

/-- The lowered IR.  The snake-case `into`/`into_tag` names are
cosmetic and not modelled. -/
structure Ir where
  trait_aggregates : List TraitAggregate
  enumDef : Enum
  enum_impl : EnumImpl
  autoref_specializers : List AutorefSpecializer
  wrap_ident : String
  wrap_derefs : Nat
deriving DecidableEq, Repr

/-- `enum_variant_to_constraint` from `lower.rs`. -/
def enum_variant_to_constraint (v : AnalyzedEnumVariant) : Constraint :=
  match v.implemented_traits with
  | [] => Constraint.none
  | [t] => Constraint.path t.pathIdx
  | _ => Constraint.ident v.ident

/-- `generate_trait_aggregates` from `lower.rs`: one aggregate per
variant with two or more traits, named after the variant. -/
def generate_trait_aggregates (model : Model) : List TraitAggregate :=
  model.enum_variants.filterMap (fun v =>
    if v.implemented_traits.length ≤ 1 then none
    else some { name := v.ident, traits := v.implemented_traits })

/-- `generate_enum` from `lower.rs`. -/
def generate_enum (model : Model) : Enum :=
  { name := model.enum_ident
    variants := model.enum_variants.map (fun v =>
      { ident := v.ident, constraint := enum_variant_to_constraint v }) }

/-- `generate_enum_impl` from `lower.rs`: one function per trait,
matching the variants whose trait list contains a pointer-equal path. -/
def generate_enum_impl (model : Model) : EnumImpl :=
  { functions := model.traits.map (fun ct =>
      { result_path := ct.pathIdx
        matching_variants :=
          (model.enum_variants.filter (fun v =>
            v.implemented_traits.any (fun it => it.pathIdx == ct.pathIdx))).map
            (fun v => v.ident) }) }

/-- `generate_autoref_specializers` from `lower.rs`: one specializer per
variant, its deref count being the number of implemented traits. -/
def generate_autoref_specializers (model : Model) : List AutorefSpecializer :=
  model.enum_variants.map (fun v =>
    { tag := v.ident ++ "Tag"
      matchIdent := v.ident ++ "Match"
      deref_count := v.implemented_traits.length
      variant := v.ident
      constraint := enum_variant_to_constraint v })

/-- `lower` from `lower.rs`: assemble the IR; the wrap expander uses
`traits.len() + 1` dereferences. -/
def lower (model : Model) : Ir :=
  { trait_aggregates := generate_trait_aggregates model
    enumDef := generate_enum model
    enum_impl := generate_enum_impl model
    autoref_specializers := generate_autoref_specializers model
    wrap_ident := model.wrap_ident
    wrap_derefs := model.traits.length + 1 }

end Lower

/-! Order theory for the byte-lexicographic comparison `lexLt`. -/

theorem lexLt_asymm : ∀ (a b : List Char), lexLt a b = true → lexLt b a = false
  | [], [], h => by simp [lexLt] at h
  | [], _ :: _, _ => by simp [lexLt]
  | _ :: _, [], h => by simp [lexLt] at h
  | a :: as, b :: bs, h => by
    by_cases hab : a < b
    · simp [lexLt, hab, asymm hab]
    · by_cases hba : b < a
      · simp [lexLt, hab, hba] at h
      · simp only [lexLt, if_neg hab, if_neg hba] at h
        simp [lexLt, hab, hba, lexLt_asymm as bs h]

theorem lexLt_connex : ∀ (a b : List Char), lexLt a b = false → lexLt b a = false → a = b
  | [], [], _, _ => rfl
  | [], _ :: _, h, _ => by simp [lexLt] at h
  | _ :: _, [], _, h => by simp [lexLt] at h
  | a :: as, b :: bs, h, h' => by
    by_cases hab : a < b
    · simp [lexLt, hab] at h
    · by_cases hba : b < a
      · simp [lexLt, hba] at h'
      · simp only [lexLt, if_neg hab, if_neg hba] at h
        simp only [lexLt, if_neg hab, if_neg hba] at h'
        have : a = b := le_antisymm (not_lt.mp hba) (not_lt.mp hab)
        rw [this, lexLt_connex as bs h h']

theorem lexLt_trans : ∀ (a b c : List Char),
    lexLt a b = true → lexLt b c = true → lexLt a c = true
  | [], b, [], _, h => by cases b <;> simp [lexLt] at h
  | [], _, _ :: _, _, _ => by simp [lexLt]
  | _ :: _, [], _, h, _ => by simp [lexLt] at h
  | _ :: _, _ :: _, [], _, h => by simp [lexLt] at h
  | a :: as, b :: bs, c :: cs, h, h' => by
    by_cases hab : a < b
    · by_cases hbc : b < c
      · simp [lexLt, lt_trans hab hbc]
      · by_cases hcb : c < b
        · simp [lexLt, hbc, hcb] at h'
        · have : b = c := le_antisymm (not_lt.mp hcb) (not_lt.mp hbc)
          simp [lexLt, this ▸ hab]
    · by_cases hba : b < a
      · simp [lexLt, hab, hba] at h
      · have hab' : a = b := le_antisymm (not_lt.mp hba) (not_lt.mp hab)
        subst hab'
        simp only [lexLt, if_neg hab, if_neg hba] at h
        by_cases hac : a < c
        · simp [lexLt, hac]
        · by_cases hca : c < a
          · simp [lexLt, hac, hca] at h'
          · simp only [lexLt, if_neg hac, if_neg hca] at h' ⊢
            exact lexLt_trans as bs cs h h'

/-- The non-strict order a stable `sort_by_key` uses: `¬ key b < key a`. -/
theorem keyLe_total {α : Type} (k : α → List Char) (x y : α) :
    lexLt (k y) (k x) = false ∨ lexLt (k x) (k y) = false := by
  cases h : lexLt (k y) (k x)
  · exact Or.inl rfl
  · exact Or.inr (lexLt_asymm _ _ h)

theorem keyLe_trans {α : Type} (k : α → List Char) (x y z : α)
    (h1 : lexLt (k y) (k x) = false) (h2 : lexLt (k z) (k y) = false) :
    lexLt (k z) (k x) = false := by
  cases h : lexLt (k z) (k x)
  · rfl
  · exfalso
    cases h' : lexLt (k y) (k z)
    · have : k y = k z := lexLt_connex _ _ h' h2
      rw [this] at h1
      rw [h1] at h
      exact Bool.false_ne_true h
    · have := lexLt_trans _ _ _ h' h
      rw [h1] at this
      exact Bool.false_ne_true this

/-! The bit-mask enumeration produces exactly `List.sublists`. -/

theorem and_shift_ne_zero (i j : Nat) : (i &&& (1 <<< j) ≠ 0) ↔ i.testBit j = true := by
  rw [Nat.one_shiftLeft, Nat.and_two_pow]
  cases h : i.testBit j <;> simp [Nat.pow_eq_zero]

theorem bitsSubsetAux_sublist (i : Nat) : ∀ (ts : List Trait) (j : Nat),
    (bitsSubsetAux i j ts).Sublist ts
  | [], _ => List.Sublist.refl _
  | t :: ts, j => by
    rw [bitsSubsetAux]
    by_cases h : i &&& (1 <<< j) ≠ 0
    · rw [if_pos h]
      exact List.Sublist.cons₂ t (bitsSubsetAux_sublist i ts (j + 1))
    · rw [if_neg h]
      exact List.Sublist.cons t (bitsSubsetAux_sublist i ts (j + 1))

theorem bitsSubsetAux_shift (i : Nat) : ∀ (ts : List Trait) (j : Nat),
    bitsSubsetAux i (j + 1) ts = bitsSubsetAux (i >>> 1) j ts
  | [], _ => rfl
  | t :: ts, j => by
    have hc : (i &&& (1 <<< (j + 1)) ≠ 0) ↔ ((i >>> 1) &&& (1 <<< j) ≠ 0) := by
      rw [and_shift_ne_zero, and_shift_ne_zero, Nat.shiftRight_one, ← Nat.testBit_succ]
    rw [bitsSubsetAux, bitsSubsetAux]
    by_cases h : (i >>> 1) &&& (1 <<< j) ≠ 0
    · rw [if_pos h, if_pos (hc.mpr h), bitsSubsetAux_shift i ts (j + 1)]
    · rw [if_neg h, if_neg (fun hh => h (hc.mp hh)), bitsSubsetAux_shift i ts (j + 1)]

theorem bitsSubset_sublist (ts : List Trait) (i : Nat) : (bitsSubset ts i).Sublist ts :=
  bitsSubsetAux_sublist i ts 0

theorem bitsSubset_cons (t : Trait) (ts : List Trait) (i : Nat) :
    bitsSubset (t :: ts) i
      = (if i % 2 = 1 then [t] else []) ++ bitsSubset ts (i >>> 1) := by
  show bitsSubsetAux i 0 (t :: ts) = _
  rw [bitsSubsetAux]
  have hc : (i &&& (1 <<< 0) ≠ 0) ↔ i % 2 = 1 := by
    rw [Nat.shiftLeft_zero, Nat.and_one_is_mod]
    omega
  by_cases h : i % 2 = 1
  · rw [if_pos (hc.mpr h), if_pos h, bitsSubsetAux_shift]
    rfl
  · rw [if_neg (fun hh => h (hc.mp hh)), if_neg h, bitsSubsetAux_shift]
    rfl

theorem range_two_mul_map {β : Type} (g : Nat → β) : ∀ (m : Nat),
    (List.range (2 * m)).map g
      = (List.range m).flatMap (fun k => [g (2 * k), g (2 * k + 1)])
  | 0 => rfl
  | m + 1 => by
    have h2 : 2 * (m + 1) = 2 * m + 1 + 1 := by omega
    rw [h2, List.range_succ, List.range_succ, List.map_append, List.map_append,
      List.range_succ, List.flatMap_append, ← range_two_mul_map g m]
    simp [List.flatMap_cons, List.append_assoc]

theorem range_map_bitsSubset : ∀ (ts : List Trait),
    (List.range (1 <<< ts.length)).map (bitsSubset ts) = ts.sublists
  | [] => rfl
  | t :: ts => by
    have h2 : (1 : Nat) <<< (t :: ts).length = 2 * (1 <<< ts.length) := by
      rw [Nat.one_shiftLeft, Nat.one_shiftLeft, List.length_cons, pow_succ]
      ring
    have hf : ∀ k : Nat,
        [bitsSubset (t :: ts) (2 * k), bitsSubset (t :: ts) (2 * k + 1)]
          = [bitsSubset ts k, t :: bitsSubset ts k] := by
      intro k
      have s0 : (2 * k) >>> 1 = k := by rw [Nat.shiftRight_one]; omega
      have s1 : (2 * k + 1) >>> 1 = k := by rw [Nat.shiftRight_one]; omega
      rw [bitsSubset_cons, bitsSubset_cons, s0, s1,
        if_neg (by omega : ¬ (2 * k) % 2 = 1), if_pos (by omega : (2 * k + 1) % 2 = 1)]
      simp
    calc (List.range (1 <<< (t :: ts).length)).map (bitsSubset (t :: ts))
        = (List.range (1 <<< ts.length)).flatMap
            (fun k => [bitsSubset (t :: ts) (2 * k), bitsSubset (t :: ts) (2 * k + 1)]) := by
          rw [h2, range_two_mul_map]
      _ = (List.range (1 <<< ts.length)).flatMap
            (fun k => [bitsSubset ts k, t :: bitsSubset ts k]) :=
          congrArg _ (funext hf)
      _ = ((List.range (1 <<< ts.length)).map (bitsSubset ts)).flatMap
            (fun x => [x, t :: x]) :=
          (List.flatMap_map (bitsSubset ts) (fun x => [x, t :: x])
            (List.range (1 <<< ts.length))).symm
      _ = (ts.sublists).flatMap (fun x => [x, t :: x]) := by rw [range_map_bitsSubset ts]
      _ = (t :: ts).sublists := by rw [List.sublists_cons, List.bind_eq_flatMap]

/-! Transport lemmas: the sorted variant lists are permutations of the
enumeration, whose member lists are exactly the sublists. -/

theorem mkVariants_map_traits (name : String) (ts : List Trait) :
    (mkVariants name ts).map (·.implemented_traits) = ts.sublists := by
  unfold mkVariants
  rw [List.map_map]
  have hid : ((fun e : EnumVariant => e.implemented_traits) ∘
      fun v => ({ ident := name ++ variantName v, implemented_traits := v } : EnumVariant))
      = id := rfl
  rw [hid, List.map_id]
  exact range_map_bitsSubset ts

theorem generate_enum_variants_perm (name : String) (ts : List Trait) :
    (generate_enum_variants name ts).Perm (mkVariants name ts) := by
  unfold generate_enum_variants
  exact (List.reverse_perm _).trans (List.perm_insertionSort _ _)

theorem generate_enum_variants_zero_pad_perm (name : String) (ts : List Trait) :
    (generate_enum_variants_zero_pad name ts).Perm (mkVariants name ts) :=
  List.perm_insertionSort _ _

theorem mkVariants_forall (name : String) (ts : List Trait) :
    ∀ v ∈ mkVariants name ts,
      v.ident = name ++ variantName v.implemented_traits
        ∧ v.implemented_traits.Sublist ts := by
  intro v hv
  unfold mkVariants at hv
  rw [List.mem_map] at hv
  obtain ⟨s, hs, rfl⟩ := hv
  refine ⟨rfl, ?_⟩
  rw [List.mem_map] at hs
  obtain ⟨i, _, rfl⟩ := hs
  exact bitsSubset_sublist ts i

theorem exists_mkVariants_of_sublist (name : String) {ts s : List Trait}
    (h : s.Sublist ts) : ∃ v ∈ mkVariants name ts, v.implemented_traits = s := by
  have hm : s ∈ (mkVariants name ts).map (·.implemented_traits) := by
    rw [mkVariants_map_traits, List.mem_sublists]
    exact h
  rw [List.mem_map] at hm
  obtain ⟨v, hv, he⟩ := hm
  exact ⟨v, hv, he⟩

theorem gev_map_traits_perm (name : String) (ts : List Trait) :
    ((generate_enum_variants name ts).map (·.implemented_traits)).Perm ts.sublists := by
  rw [← mkVariants_map_traits name ts]
  exact (generate_enum_variants_perm name ts).map _

theorem gev_length (name : String) (ts : List Trait) :
    (generate_enum_variants name ts).length = 2 ^ ts.length := by
  rw [(generate_enum_variants_perm name ts).length_eq]
  unfold mkVariants
  rw [List.length_map, List.length_map, List.length_range, Nat.one_shiftLeft]

theorem mem_gev_forall (name : String) (ts : List Trait) :
    ∀ v ∈ generate_enum_variants name ts,
      v.ident = name ++ variantName v.implemented_traits
        ∧ v.implemented_traits.Sublist ts :=
  fun v hv =>
    mkVariants_forall name ts v ((generate_enum_variants_perm name ts).mem_iff.mp hv)

theorem exists_gev_of_sublist (name : String) {ts s : List Trait} (h : s.Sublist ts) :
    ∃ v ∈ generate_enum_variants name ts, v.implemented_traits = s := by
  obtain ⟨v, hv, he⟩ := exists_mkVariants_of_sublist name h
  exact ⟨v, (generate_enum_variants_perm name ts).mem_iff.mpr hv, he⟩

/-! Lemmas about the extraction stage. -/

/-- The record list the collection loop produces when no path is empty:
one `Trait` per path, indexed from `k`. -/
def collectedTraits (k : Nat) (ps : List Syn.Path) : List Trait :=
  (List.enumFrom k ps).map
    (fun ip => { pathIdx := ip.1, ident := ip.2.segments.getLast?.getD "" })

theorem extractTraitsAux_ok : ∀ (k : Nat) (ps : List Syn.Path) (ts : List Trait),
    extractTraitsAux k ps = Except.ok ts → ts = collectedTraits k ps
  | _, [], ts, h => by
    simp only [extractTraitsAux, Except.ok.injEq] at h
    subst h
    rfl
  | k, p :: ps, ts, h => by
    rw [extractTraitsAux] at h
    cases hg : p.segments.getLast? with
    | none => rw [hg] at h; exact absurd h (by simp)
    | some s =>
      rw [hg] at h
      cases ha : extractTraitsAux (k + 1) ps with
      | error e => rw [ha] at h; exact absurd h (by simp)
      | ok rest =>
        rw [ha, Except.ok.injEq] at h
        subst h
        rw [collectedTraits, List.enumFrom_cons, List.map_cons]
        rw [← collectedTraits, ← extractTraitsAux_ok (k + 1) ps rest ha, hg]
        rfl

theorem extractTraitsAux_ok_iff : ∀ (k : Nat) (ps : List Syn.Path),
    (∃ ts, extractTraitsAux k ps = Except.ok ts) ↔ ∀ p ∈ ps, p.segments ≠ []
  | _, [] => by simp [extractTraitsAux]
  | k, p :: ps => by
    rw [extractTraitsAux]
    cases hg : p.segments.getLast? with
    | none =>
      rw [List.getLast?_eq_none_iff] at hg
      simp [hg]
    | some s =>
      have hp : p.segments ≠ [] := by
        intro he
        rw [he] at hg
        exact absurd hg (by simp)
      cases ha : extractTraitsAux (k + 1) ps with
      | error e =>
        have := (extractTraitsAux_ok_iff (k + 1) ps)
        rw [ha] at this
        simp only [reduceCtorEq, exists_false, false_iff] at this
        push_neg at this
        obtain ⟨q, hq, hqe⟩ := this
        simp only [reduceCtorEq, exists_false, false_iff]
        push_neg
        exact ⟨q, List.mem_cons_of_mem p hq, hqe⟩
      | ok rest =>
        have := (extractTraitsAux_ok_iff (k + 1) ps)
        rw [ha] at this
        simp only [Except.ok.injEq, exists_eq', true_iff] at this
        constructor
        · intro _ q hq
          rcases List.mem_cons.mp hq with rfl | hq'
          · exact hp
          · exact this q hq'
        · intro _
          exact ⟨_, rfl⟩

theorem extractTraitsAux_error : ∀ (k : Nat) (ps : List Syn.Path) (i : Nat),
    extractTraitsAux k ps = Except.error i →
    ∃ j, j < ps.length ∧ i = k + j ∧ ∃ p, ps[j]? = some p ∧ p.segments = []
  | _, [], _, h => by simp [extractTraitsAux] at h
  | k, p :: ps, i, h => by
    rw [extractTraitsAux] at h
    cases hg : p.segments.getLast? with
    | none =>
      rw [hg, Except.error.injEq] at h
      subst h
      rw [List.getLast?_eq_none_iff] at hg
      exact ⟨0, by simp, by omega, p, by simp, hg⟩
    | some s =>
      rw [hg] at h
      cases ha : extractTraitsAux (k + 1) ps with
      | error e =>
        rw [ha, Except.error.injEq] at h
        obtain ⟨j, hj, hij, q, hq, hqe⟩ := extractTraitsAux_error (k + 1) ps e ha
        exact ⟨j + 1, by simpa using hj, by omega, q, by simpa using hq, hqe⟩
      | ok rest => rw [ha] at h; exact absurd h (by simp)

theorem extract_traits_ok (ast : Ast) (ts : List Trait)
    (h : extract_traits ast = Except.ok ts) :
    ts = List.insertionSort (fun a b => lexLt b.ident.data a.ident.data = false)
      (collectedTraits 0 ast.paths) := by
  rw [extract_traits] at h
  cases ha : extractTraitsAux 0 ast.paths with
  | error e => rw [ha] at h; exact absurd h (by simp)
  | ok l =>
    rw [ha, Except.ok.injEq] at h
    subst h
    rw [← extractTraitsAux_ok 0 ast.paths l ha]

theorem extract_traits_perm (ast : Ast) (ts : List Trait)
    (h : extract_traits ast = Except.ok ts) : ts.Perm (collectedTraits 0 ast.paths) := by
  rw [extract_traits_ok ast ts h]
  exact List.perm_insertionSort _ _

theorem collectedTraits_map_pathIdx (k : Nat) (ps : List Syn.Path) :
    (collectedTraits k ps).map (·.pathIdx) = List.range' k ps.length := by
  rw [collectedTraits, List.map_map, ← List.enumFrom_map_fst k ps]
  rfl

theorem extract_traits_pathIdx_nodup (ast : Ast) (ts : List Trait)
    (h : extract_traits ast = Except.ok ts) : (ts.map (·.pathIdx)).Nodup := by
  have hp := (extract_traits_perm ast ts h).map (·.pathIdx)
  rw [hp.nodup_iff, collectedTraits_map_pathIdx]
  exact List.nodup_range' _ _

theorem extract_traits_nodup (ast : Ast) (ts : List Trait)
    (h : extract_traits ast = Except.ok ts) : ts.Nodup := by
  have := extract_traits_pathIdx_nodup ast ts h
  exact this.of_map

theorem extract_traits_length (ast : Ast) (ts : List Trait)
    (h : extract_traits ast = Except.ok ts) : ts.length = ast.paths.length := by
  rw [(extract_traits_perm ast ts h).length_eq, collectedTraits, List.length_map,
    List.enumFrom_length]

/-! Counting sublists by size. -/

theorem countP_flatMap_pair {α β : Type} (p : β → Bool) (f g : α → β) :
    ∀ (L : List α), (L.flatMap (fun x => [f x, g x])).countP p
      = L.countP (fun x => p (f x)) + L.countP (fun x => p (g x))
  | [] => rfl
  | x :: L => by
    simp only [List.flatMap_cons, List.countP_append, countP_flatMap_pair p f g L,
      List.countP_cons, List.countP_nil]
    omega

theorem countP_sublists_nil_eq : ∀ (l : List Trait),
    l.sublists.countP (fun s => decide (s = [])) = 1
  | [] => rfl
  | a :: l => by
    rw [List.sublists_cons, List.bind_eq_flatMap, countP_flatMap_pair]
    have h2 : (l.sublists.countP fun x => decide (a :: x = [])) = 0 := by
      rw [List.countP_eq_zero]
      intro s _
      simp
    rw [countP_sublists_nil_eq l, h2]

theorem countP_sublists_le_one : ∀ (l : List Trait),
    l.sublists.countP (fun s => decide (s.length ≤ 1)) = l.length + 1
  | [] => rfl
  | a :: l => by
    rw [List.sublists_cons, List.bind_eq_flatMap, countP_flatMap_pair]
    have h2 : (l.sublists.countP fun x => decide ((a :: x).length ≤ 1))
        = l.sublists.countP (fun s => decide (s = [])) := by
      apply List.countP_congr
      intro s _
      simp
    rw [countP_sublists_le_one l, h2, countP_sublists_nil_eq l, List.length_cons]

theorem countP_sublists_gt_one (l : List Trait) :
    l.sublists.countP (fun s => decide (1 < s.length)) = 2 ^ l.length - l.length - 1 := by
  have htot := List.length_eq_countP_add_countP
    (fun s : List Trait => decide (s.length ≤ 1)) l.sublists
  have hnot : (l.sublists.countP fun s => decide ¬ (decide (s.length ≤ 1)) = true)
      = l.sublists.countP (fun s => decide (1 < s.length)) := by
    apply List.countP_congr
    intro s _
    simp
  rw [List.length_sublists, hnot, countP_sublists_le_one l] at htot
  omega

/-! Sortedness of the generated variant order. -/

theorem gev_pairwise (name : String) (ts : List Trait) :
    (generate_enum_variants name ts).Pairwise
      (fun a b => lexLt (sortKey a) (sortKey b) = false) := by
  unfold generate_enum_variants
  rw [List.pairwise_reverse]
  haveI : IsTotal EnumVariant (fun a b => lexLt (sortKey b) (sortKey a) = false) :=
    ⟨keyLe_total sortKey⟩
  haveI : IsTrans EnumVariant (fun a b => lexLt (sortKey b) (sortKey a) = false) :=
    ⟨keyLe_trans sortKey⟩
  exact List.sorted_insertionSort _ _

theorem extract_traits_sorted (ast : Ast) (ts : List Trait)
    (h : extract_traits ast = Except.ok ts) :
    ts.Pairwise (fun a b => lexLt b.ident.data a.ident.data = false) := by
  rw [extract_traits_ok ast ts h]
  haveI : IsTotal Trait (fun a b => lexLt b.ident.data a.ident.data = false) :=
    ⟨keyLe_total (fun t : Trait => t.ident.data)⟩
  haveI : IsTrans Trait (fun a b => lexLt b.ident.data a.ident.data = false) :=
    ⟨keyLe_trans (fun t : Trait => t.ident.data)⟩
  exact List.sorted_insertionSort _ _

/-! Single-digit sizes compare like numbers inside the crates sort key. -/

theorem repr_digit_data (d : Nat) (hd : d ≤ 9) :
    (Nat.repr d).data = [Nat.digitChar d] := by
  interval_cases d <;> rfl

theorem digitChar_lt {a b : Nat} (ha : a ≤ 9) (hb : b ≤ 9) (h : a < b) :
    Nat.digitChar a < Nat.digitChar b := by
  interval_cases a <;> interval_cases b <;> first
    | exact absurd h (by omega)
    | decide

theorem sortKey_lt_of_len_lt {a b : EnumVariant}
    (ha : a.implemented_traits.length ≤ 9) (hb : b.implemented_traits.length ≤ 9)
    (h : a.implemented_traits.length < b.implemented_traits.length) :
    lexLt (sortKey a) (sortKey b) = true := by
  rw [sortKey, sortKey, repr_digit_data _ ha, repr_digit_data _ hb,
    List.singleton_append, List.singleton_append]
  simp [lexLt, digitChar_lt ha hb h]

theorem gev_len_pairwise (name : String) (ts : List Trait) (h9 : ts.length ≤ 9) :
    (generate_enum_variants name ts).Pairwise
      (fun a b => b.implemented_traits.length ≤ a.implemented_traits.length) := by
  have hp := gev_pairwise name ts
  refine hp.imp_of_mem ?_
  intro a b ha hb hr
  by_contra hlt
  push_neg at hlt
  have ha9 : a.implemented_traits.length ≤ 9 :=
    le_trans (mem_gev_forall name ts a ha).2.length_le h9
  have hb9 : b.implemented_traits.length ≤ 9 :=
    le_trans (mem_gev_forall name ts b hb).2.length_le h9
  have htrue := sortKey_lt_of_len_lt ha9 hb9 hlt
  rw [hr] at htrue
  exact Bool.false_ne_true htrue

/-! Unfolding helpers for the lowering stage and the analyzed model. -/

theorem analyze_ok (ast : Ast) (model : Model) (h : analyze ast = Except.ok model) :
    extract_traits ast = Except.ok model.traits
    ∧ model.enum_ident = ast.name
    ∧ model.wrap_ident = "Wrap" ++ ast.name
    ∧ model.enum_variants = generate_enum_variants ast.name model.traits := by
  unfold analyze at h
  cases he : extract_traits ast with
  | error e => rw [he] at h; exact absurd h (by simp)
  | ok ts =>
    rw [he, Except.ok.injEq] at h
    subst h
    exact ⟨rfl, rfl, rfl, rfl⟩

theorem any_pathIdx_eq_mem {ts members : List Trait}
    (hnodup : (ts.map (·.pathIdx)).Nodup) (hsub : members ⊆ ts)
    {ct : Trait} (hct : ct ∈ ts) :
    (members.any (fun it => it.pathIdx == ct.pathIdx)) = decide (ct ∈ members) := by
  by_cases hm : ct ∈ members
  · rw [decide_eq_true hm]
    exact List.any_eq_true.mpr ⟨ct, hm, by simp⟩
  · rw [decide_eq_false hm]
    cases hv : members.any (fun it => it.pathIdx == ct.pathIdx)
    · rfl
    · exfalso
      obtain ⟨it, hit, hbeq⟩ := List.any_eq_true.mp hv
      have heq : it = ct :=
        List.inj_on_of_nodup_map hnodup (hsub hit) hct (by simpa using hbeq)
      exact hm (heq ▸ hit)

theorem filterMap_aggregates_eq : ∀ (l : List EnumVariant),
    (l.filterMap (fun v =>
      if v.implemented_traits.length ≤ 1 then none
      else some ({ name := v.ident, traits := v.implemented_traits } : Lower.TraitAggregate)))
      = (l.filter (fun v => decide (1 < v.implemented_traits.length))).map
          (fun v => { name := v.ident, traits := v.implemented_traits })
  | [] => rfl
  | v :: l => by
    rw [List.filterMap_cons]
    by_cases h : v.implemented_traits.length ≤ 1
    · rw [if_pos h, List.filter_cons,
        if_neg (by simp only [decide_eq_true_eq]; omega), filterMap_aggregates_eq l]
    · rw [if_neg h, List.filter_cons,
        if_pos (by simp only [decide_eq_true_eq]; omega), List.map_cons,
        filterMap_aggregates_eq l]

theorem generate_trait_aggregates_eq (m : Model) :
    Lower.generate_trait_aggregates m
      = (m.enum_variants.filter (fun v => decide (1 < v.implemented_traits.length))).map
          (fun v => { name := v.ident, traits := v.implemented_traits }) :=
  filterMap_aggregates_eq m.enum_variants

theorem generate_enum_impl_functions (m : Model) :
    (Lower.generate_enum_impl m).functions
      = m.traits.map (fun ct =>
          { result_path := ct.pathIdx
            matching_variants :=
              (m.enum_variants.filter (fun v =>
                v.implemented_traits.any (fun it => it.pathIdx == ct.pathIdx))).map
                (fun v => v.ident) }) := rfl

theorem autoref_deref_eq (m : Model) :
    (Lower.generate_autoref_specializers m).map (·.deref_count)
      = m.enum_variants.map (·.implemented_traits.length) := by
  unfold Lower.generate_autoref_specializers
  rw [List.map_map]
  rfl

theorem lower_autoref (m : Model) :
    (Lower.lower m).autoref_specializers = Lower.generate_autoref_specializers m := rfl

theorem lower_wrap_derefs (m : Model) :
    (Lower.lower m).wrap_derefs = m.traits.length + 1 := rfl

theorem extract_traits_ok_iff (ast : Ast) :
    (∃ ts, extract_traits ast = Except.ok ts) ↔ ∀ p ∈ ast.paths, p.segments ≠ [] := by
  rw [← extractTraitsAux_ok_iff 0 ast.paths]
  unfold extract_traits
  cases ha : extractTraitsAux 0 ast.paths <;> simp

theorem extract_traits_error (ast : Ast) (i : Nat)
    (h : extract_traits ast = Except.error i) :
    i < ast.paths.length ∧ ∃ p, ast.paths[i]? = some p ∧ p.segments = [] := by
  unfold extract_traits at h
  cases ha : extractTraitsAux 0 ast.paths with
  | ok ts => rw [ha] at h; exact absurd h (by simp)
  | error e =>
    rw [ha, Except.error.injEq] at h
    obtain ⟨j, hj, hij, p, hp, hpe⟩ := extractTraitsAux_error 0 ast.paths e ha
    have hji : j = i := by omega
    subst hji
    exact ⟨hj, p, hp, hpe⟩

theorem analyze_error_iff (ast : Ast) (i : Nat) :
    analyze ast = Except.error i ↔ extract_traits ast = Except.error i := by
  unfold analyze
  cases he : extract_traits ast with
  | error e => simp
  | ok ts => simp

/-! Concrete fixtures used by the evaluation theorems and witnesses. -/

deriving instance DecidableEq for Except

/-- The input `T { Debug, Display }`. -/
def astDD : Ast :=
  { name := "T", paths := [{ segments := ["Debug"] }, { segments := ["Display"] }] }

/-- The extracted capability list of `astDD`. -/
def tsDD : List Trait :=
  [{ pathIdx := 0, ident := "Debug" }, { pathIdx := 1, ident := "Display" }]

/-- The model the pipeline produces for `astDD`. -/
def modelDD : Model :=
  { enum_ident := "T"
    enum_variants := generate_enum_variants "T" tsDD
    wrap_ident := "WrapT"
    traits := tsDD }

/-- The input `T { A, AB, B }`, whose concatenated names collide. -/
def astAB : Ast :=
  { name := "T"
    paths := [{ segments := ["A"] }, { segments := ["AB"] }, { segments := ["B"] }] }

/-- The extracted capability list of `astAB`. -/
def tsAB : List Trait :=
  [{ pathIdx := 0, ident := "A" }, { pathIdx := 1, ident := "AB" },
    { pathIdx := 2, ident := "B" }]

/-- The model the pipeline produces for `astAB`. -/
def modelAB : Model :=
  { enum_ident := "T"
    enum_variants := generate_enum_variants "T" tsAB
    wrap_ident := "WrapT"
    traits := tsAB }

/-- The input `T { b::Debug, a::Debug }`: two references with the same
final segment. -/
def astDupSeg : Ast :=
  { name := "T"
    paths := [{ segments := ["b", "Debug"] }, { segments := ["a", "Debug"] }] }

/-- The extracted capability list of `astDupSeg`: no deduplication. -/
def tsDupSeg : List Trait :=
  [{ pathIdx := 0, ident := "Debug" }, { pathIdx := 1, ident := "Debug" }]

/-- The input `T { Debug, <empty path> }`. -/
def astBad : Ast :=
  { name := "T", paths := [{ segments := ["Debug"] }, { segments := [] }] }

/-! Claim theorems. -/

/-- C1: the claim demands size-descending, then name-ascending order.
Evaluating the pipeline on `T { Debug, Display }` shows the
`src/crates` enumerator emits the size-1 tier as
`TDisplay, TDebug` — names descending — because `sort_by_key` followed
by `reverse` also reverses the alphabetical tie-break, while the
zero-padded `src/trait_mux_macros` copy (whose tests assert the claimed
order) emits `TDebug, TDisplay` as the spec states. -/
theorem c1_ordering_crates_vs_fixed_eval :
    analyze astDD = Except.ok modelDD
    ∧ (modelDD.enum_variants.map (·.ident))
        = ["TDebugDisplay", "TDisplay", "TDebug", "TNone"]
    ∧ ((generate_enum_variants_zero_pad "T" tsDD).map (·.ident))
        = ["TDebugDisplay", "TDebug", "TDisplay", "TNone"] :=
  ⟨by decide, by decide, by decide⟩

/-- C2: for a duplicate-free capability list of size N the enumerator
produces exactly `2^N` combinations whose member lists are, up to
order, exactly the sublists of the capability list — every subset
once — and they are pairwise distinct. -/
theorem c2_enumerator_power_set (name : String) (traits : List Trait)
    (h : traits.Nodup) :
    (generate_enum_variants name traits).length = 2 ^ traits.length
    ∧ ((generate_enum_variants name traits).map (·.implemented_traits)).Perm
        traits.sublists
    ∧ ((generate_enum_variants name traits).map (·.implemented_traits)).Nodup := by
  refine ⟨gev_length name traits, gev_map_traits_perm name traits, ?_⟩
  rw [(gev_map_traits_perm name traits).nodup_iff]
  exact List.nodup_sublists.mpr h

theorem c2_enumerator_power_set_witness :
    tsDD.Nodup
    ∧ ((generate_enum_variants "T" tsDD).length = 2 ^ tsDD.length
      ∧ ((generate_enum_variants "T" tsDD).map (·.implemented_traits)).Perm
          tsDD.sublists
      ∧ ((generate_enum_variants "T" tsDD).map (·.implemented_traits)).Nodup) :=
  ⟨by decide, c2_enumerator_power_set "T" tsDD (by decide)⟩

/-- C3: on every analyzed model, each accessor's matching list is
exactly the variants whose members contain the capability (pointer
identity coincides with membership there), `filter` preserving the
ordering's relative order; and for every capability the singleton and
the full combination are among the matches, so no list is empty. -/
theorem c3_accessor_descriptors (ast : Ast) (model : Model)
    (h : analyze ast = Except.ok model) :
    (Lower.generate_enum_impl model).functions
      = model.traits.map (fun ct =>
          { result_path := ct.pathIdx
            matching_variants :=
              (model.enum_variants.filter
                (fun v => decide (ct ∈ v.implemented_traits))).map (fun v => v.ident) })
    ∧ ∀ ct ∈ model.traits,
        (∃ v ∈ model.enum_variants.filter
            (fun v => decide (ct ∈ v.implemented_traits)),
          v.implemented_traits = [ct])
        ∧ (∃ v ∈ model.enum_variants.filter
            (fun v => decide (ct ∈ v.implemented_traits)),
          v.implemented_traits = model.traits)
        ∧ model.enum_variants.filter
            (fun v => decide (ct ∈ v.implemented_traits)) ≠ [] := by
  obtain ⟨hex, _, _, hev⟩ := analyze_ok ast model h
  have hnodup := extract_traits_pathIdx_nodup ast model.traits hex
  have hsubs : ∀ v ∈ model.enum_variants, v.implemented_traits ⊆ model.traits := by
    intro v hv
    rw [hev] at hv
    exact (mem_gev_forall ast.name model.traits v hv).2.subset
  constructor
  · rw [generate_enum_impl_functions]
    apply List.map_congr_left
    intro ct hct
    have hfil : (model.enum_variants.filter (fun v =>
        v.implemented_traits.any (fun it => it.pathIdx == ct.pathIdx)))
        = model.enum_variants.filter (fun v => decide (ct ∈ v.implemented_traits)) := by
      apply List.filter_congr
      intro v hv
      exact any_pathIdx_eq_mem hnodup (hsubs v hv) hct
    rw [hfil]
  · intro ct hct
    obtain ⟨v1, hv1, hm1⟩ :=
      exists_gev_of_sublist ast.name (List.singleton_sublist.mpr hct)
    obtain ⟨v2, hv2, hm2⟩ :=
      exists_gev_of_sublist ast.name (List.Sublist.refl model.traits)
    have hv1' : v1 ∈ model.enum_variants := by rw [hev]; exact hv1
    have hv2' : v2 ∈ model.enum_variants := by rw [hev]; exact hv2
    have hd1 : decide (ct ∈ v1.implemented_traits) = true := by rw [hm1]; simp
    have hd2 : decide (ct ∈ v2.implemented_traits) = true := by
      rw [hm2]; exact decide_eq_true hct
    exact ⟨⟨v1, List.mem_filter.mpr ⟨hv1', hd1⟩, hm1⟩,
      ⟨v2, List.mem_filter.mpr ⟨hv2', hd2⟩, hm2⟩,
      List.ne_nil_of_mem (List.mem_filter.mpr ⟨hv2', hd2⟩)⟩

theorem c3_accessor_descriptors_witness :
    analyze astDD = Except.ok modelDD
    ∧ ((Lower.generate_enum_impl modelDD).functions
        = modelDD.traits.map (fun ct =>
            { result_path := ct.pathIdx
              matching_variants :=
                (modelDD.enum_variants.filter
                  (fun v => decide (ct ∈ v.implemented_traits))).map (fun v => v.ident) }))
    ∧ (∃ v ∈ modelDD.enum_variants.filter
          (fun v => decide (({ pathIdx := 0, ident := "Debug" } : Trait)
            ∈ v.implemented_traits)),
        v.implemented_traits = [{ pathIdx := 0, ident := "Debug" }]) :=
  ⟨by decide, (c3_accessor_descriptors astDD modelDD (by decide)).1,
    ((c3_accessor_descriptors astDD modelDD (by decide)).2
      { pathIdx := 0, ident := "Debug" } (by decide)).1⟩

/-- C4: on every analyzed model a trait aggregate is emitted exactly
for the variants with strictly more than one member, named after the
owning variant with its member list in order, and the aggregate count
is `2^N - N - 1` (with truncated subtraction this also covers N = 0). -/
theorem c4_capability_groups (ast : Ast) (model : Model)
    (h : analyze ast = Except.ok model) :
    Lower.generate_trait_aggregates model
      = (model.enum_variants.filter
          (fun v => decide (1 < v.implemented_traits.length))).map
          (fun v => { name := v.ident, traits := v.implemented_traits })
    ∧ (Lower.generate_trait_aggregates model).length
        = 2 ^ model.traits.length - model.traits.length - 1 := by
  obtain ⟨hex, _, _, hev⟩ := analyze_ok ast model h
  refine ⟨generate_trait_aggregates_eq model, ?_⟩
  rw [generate_trait_aggregates_eq model, List.length_map,
    ← List.countP_eq_length_filter, hev]
  have hcomp : (fun v : EnumVariant => decide (1 < v.implemented_traits.length))
      = ((fun s : List Trait => decide (1 < s.length))
        ∘ (fun v : EnumVariant => v.implemented_traits)) := rfl
  rw [hcomp, ← List.countP_map, (gev_map_traits_perm ast.name model.traits).countP_eq]
  exact countP_sublists_gt_one model.traits

theorem c4_capability_groups_witness :
    analyze astDD = Except.ok modelDD
    ∧ (Lower.generate_trait_aggregates modelDD).length
        = 2 ^ modelDD.traits.length - modelDD.traits.length - 1 :=
  ⟨by decide, (c4_capability_groups astDD modelDD (by decide)).2⟩

/-- C5 counterexample: on `T { Debug, Display }` the specializer depth
sequence is `[2, 1, 1, 0]`, which does not strictly decrease at every
step — two size-1 combinations are adjacent. -/
theorem c5_strict_decrease_counterexample :
    analyze astDD = Except.ok modelDD
    ∧ ((Lower.lower modelDD).autoref_specializers.map (·.deref_count)) = [2, 1, 1, 0]
    ∧ ¬ List.Chain' (· > ·)
        ((Lower.lower modelDD).autoref_specializers.map (·.deref_count)) := by
  refine ⟨by decide, by decide, ?_⟩
  intro hc
  rw [show ((Lower.lower modelDD).autoref_specializers.map (·.deref_count))
      = [2, 1, 1, 0] from by decide] at hc
  rw [List.chain'_cons, List.chain'_cons] at hc
  exact absurd hc.2.1 (by omega)

/-- C5 amended: every specializer's priority depth equals its variant's
member count, and for capability lists of at most 9 capabilities the
depth sequence never increases while walking down the combination
ordering (the crates sort key compares sizes as decimal strings, so
only single-digit sizes order numerically). -/
theorem c5_priority_depth_amended (ast : Ast) (model : Model)
    (h : analyze ast = Except.ok model) :
    ((Lower.lower model).autoref_specializers.map (·.deref_count)
      = model.enum_variants.map (·.implemented_traits.length))
    ∧ (model.traits.length ≤ 9 →
        ((Lower.lower model).autoref_specializers.map (·.deref_count)).Pairwise
          (· ≥ ·)) := by
  obtain ⟨hex, _, _, hev⟩ := analyze_ok ast model h
  refine ⟨autoref_deref_eq model, ?_⟩
  intro h9
  rw [lower_autoref, autoref_deref_eq model, hev, List.pairwise_map]
  exact gev_len_pairwise ast.name model.traits h9

theorem c5_priority_depth_amended_witness :
    analyze astDD = Except.ok modelDD
    ∧ ((Lower.lower modelDD).autoref_specializers.map (·.deref_count)
        = modelDD.enum_variants.map (·.implemented_traits.length))
    ∧ modelDD.traits.length ≤ 9
    ∧ ((Lower.lower modelDD).autoref_specializers.map (·.deref_count)).Pairwise
        (· ≥ ·) :=
  ⟨by decide, (c5_priority_depth_amended astDD modelDD (by decide)).1, by decide,
    (c5_priority_depth_amended astDD modelDD (by decide)).2 (by decide)⟩

/-- C6 counterexample: with capabilities named `A`, `AB`, `B` the
subsets `{AB}` and `{A, B}` both concatenate to `AB`, so two variants
share the name `TAB` — the generated names are not pairwise distinct. -/
theorem c6_unique_names_counterexample :
    analyze astAB = Except.ok modelAB
    ∧ ¬ (modelAB.enum_variants.map (·.ident)).Nodup :=
  ⟨by decide, by decide⟩

/-- C6 amended: every variant's name is the owner's name prefixed to
the concatenation of its members' display names in capability-sequence
order, the empty subset being named `None`; distinctness of the
resulting names is not guaranteed. -/
theorem c6_naming_rule_amended (name : String) (traits : List Trait) :
    ∀ v ∈ generate_enum_variants name traits,
      v.ident = name ++ (if v.implemented_traits.isEmpty then "None"
        else String.join (v.implemented_traits.map (·.ident))) := by
  intro v hv
  have h := (mem_gev_forall name traits v hv).1
  rw [h]
  rfl

theorem c6_naming_rule_amended_witness :
    (({ ident := "TDebugDisplay", implemented_traits := tsDD } : EnumVariant)
      ∈ generate_enum_variants "T" tsDD)
    ∧ ({ ident := "TDebugDisplay", implemented_traits := tsDD } : EnumVariant).ident
        = "T" ++ (if (({ ident := "TDebugDisplay", implemented_traits := tsDD }
            : EnumVariant)).implemented_traits.isEmpty then "None"
          else String.join ((({ ident := "TDebugDisplay", implemented_traits := tsDD }
            : EnumVariant)).implemented_traits.map (·.ident))) :=
  ⟨by decide, c6_naming_rule_amended "T" tsDD
    { ident := "TDebugDisplay", implemented_traits := tsDD } (by decide)⟩

/-- C7: extraction emits one record per reference — no deduplication,
also for equal final segments — whose display name is the reference's
final segment (the records are, up to sorting, exactly
`collectedTraits`), and the output is sorted ascending by display
name. -/
theorem c7_extractor_contract (ast : Ast) (ts : List Trait)
    (h : extract_traits ast = Except.ok ts) :
    ts.length = ast.paths.length
    ∧ ts.Perm (collectedTraits 0 ast.paths)
    ∧ ts.Pairwise (fun a b => lexLt b.ident.data a.ident.data = false) :=
  ⟨extract_traits_length ast ts h, extract_traits_perm ast ts h,
    extract_traits_sorted ast ts h⟩

theorem c7_extractor_contract_witness :
    extract_traits astDupSeg = Except.ok tsDupSeg
    ∧ (tsDupSeg.length = astDupSeg.paths.length
      ∧ tsDupSeg.Perm (collectedTraits 0 astDupSeg.paths)
      ∧ tsDupSeg.Pairwise (fun a b => lexLt b.ident.data a.ident.data = false)) :=
  ⟨by decide, c7_extractor_contract astDupSeg tsDupSeg (by decide)⟩

/-- C8: extraction succeeds exactly when every reference has at least
one segment; an error carries the index of an offending empty path
(the location), and `analyze` aborts with exactly that error, so no
partial model is produced. -/
theorem c8_malformed_reference (ast : Ast) :
    ((∃ ts, extract_traits ast = Except.ok ts) ↔ ∀ p ∈ ast.paths, p.segments ≠ [])
    ∧ (∀ i, extract_traits ast = Except.error i →
        i < ast.paths.length ∧ ∃ p, ast.paths[i]? = some p ∧ p.segments = [])
    ∧ (∀ i, analyze ast = Except.error i ↔ extract_traits ast = Except.error i) :=
  ⟨extract_traits_ok_iff ast, fun i h => extract_traits_error ast i h,
    fun i => analyze_error_iff ast i⟩

theorem c8_malformed_reference_witness :
    (¬ ∀ p ∈ astBad.paths, p.segments ≠ [])
    ∧ extract_traits astBad = Except.error 1
    ∧ (1 < astBad.paths.length ∧ ∃ p, astBad.paths[1]? = some p ∧ p.segments = [])
    ∧ (analyze astBad = Except.error 1 ↔ extract_traits astBad = Except.error 1) :=
  ⟨by decide, by decide, (c8_malformed_reference astBad).2.1 1 (by decide),
    (c8_malformed_reference astBad).2.2 1⟩

/-- C9 counterexample: on `T { Debug, Display }` the two copies of
`generate_enum_variants` produce different sequences (the size-1 tier
is name-descending in the `src/crates` copy and name-ascending in the
zero-padded copy), so they are not extensionally equal. -/
theorem c9_not_extensionally_equal :
    generate_enum_variants "T" tsDD ≠ generate_enum_variants_zero_pad "T" tsDD := by
  decide

/-- C9 amended: for every type name and capability list the two copies
produce the same variants — identical names and member lists — up to
order (both are permutations of the same unsorted enumeration); only
the sequence order differs. -/
theorem c9_same_variants_up_to_order (name : String) (traits : List Trait) :
    (generate_enum_variants name traits).Perm
      (generate_enum_variants_zero_pad name traits) :=
  (generate_enum_variants_perm name traits).trans
    (generate_enum_variants_zero_pad_perm name traits).symm

/-- C10: the wrap expander's dereference count is `N + 1`, and it
strictly exceeds every autoref specializer's dereference count, each of
which equals its variant's member count (at most `N`). -/
theorem c10_wrap_derefs_dominate (ast : Ast) (model : Model)
    (h : analyze ast = Except.ok model) :
    (Lower.lower model).wrap_derefs = model.traits.length + 1
    ∧ ((Lower.lower model).autoref_specializers.map (·.deref_count)
        = model.enum_variants.map (·.implemented_traits.length))
    ∧ ∀ s ∈ (Lower.lower model).autoref_specializers,
        s.deref_count < (Lower.lower model).wrap_derefs := by
  obtain ⟨hex, _, _, hev⟩ := analyze_ok ast model h
  refine ⟨rfl, autoref_deref_eq model, ?_⟩
  intro s hs
  rw [lower_autoref] at hs
  unfold Lower.generate_autoref_specializers at hs
  obtain ⟨v, hv, rfl⟩ := List.mem_map.mp hs
  have hle : v.implemented_traits.length ≤ model.traits.length := by
    rw [hev] at hv
    exact (mem_gev_forall ast.name model.traits v hv).2.length_le
  show v.implemented_traits.length < model.traits.length + 1
  omega

theorem c10_wrap_derefs_dominate_witness :
    analyze astDD = Except.ok modelDD
    ∧ (Lower.lower modelDD).wrap_derefs = modelDD.traits.length + 1
    ∧ ∀ s ∈ (Lower.lower modelDD).autoref_specializers,
        s.deref_count < (Lower.lower modelDD).wrap_derefs :=
  ⟨by decide, (c10_wrap_derefs_dominate astDD modelDD (by decide)).1,
    (c10_wrap_derefs_dominate astDD modelDD (by decide)).2.2⟩
